import Mathlib

/-!
# Verification of the `docbrowser` object-inspector core

A shallow embedding of `docbrowser.py` (kivy-garden/garden.docbrowser).

The embedding covers:

* the documentation extractor `get_doc = inspect.getdoc(x) or NO_DOC_STR`,
  including a faithful port of `inspect.cleandoc` (tab expansion, margin
  removal, blank-line trimming);
* the Python value model needed by the `inspect`-based member filters
  (`ismodule`, `isclass`, `isfunction`, `isroutine`, `getmembers` with its
  name-sort);
* the recursive, resumable tree builder `ObjectInspector._create_module_node`
  and `_fill_category_node`, modelled as pure functions that return the
  constructed tree node, the updated circular-reference guard and a flat
  execution trace recording every node insertion and every generator
  suspension (`yield`);
* the traversal driver `_fill_tree` / `_load_complete` /
  `load_documentation`, modelled as a state machine over an `Inspector`
  record; a Python generator is modelled by the list of observable effects
  of its successive resumptions (a resumption either yields, raises, or
  finishes with `StopIteration`).

Module graphs may be circular, so modules are identified by qualified name
and resolved through a finite environment `Env`; the Python recursion is
modelled with explicit fuel, and termination is the theorem that fuel
`size of the environment + 1` always suffices.
-/

namespace Docbrowser

/-! ## Documentation extractor (`NO_DOC_STR`, `get_doc`, `inspect.cleandoc`) -/

def NO_DOC_STR : String := "No documentation found"

/-- `str.expandtabs()` with tab size 8; the column resets on a newline or a
carriage return. -/
def expandtabsGo : List Char → Nat → List Char
  | [], _ => []
  | c :: cs, col =>
    if c = '\t' then
      let n := 8 - col % 8
      List.replicate n ' ' ++ expandtabsGo cs (col + n)
    else if c = '\n' ∨ c = '\r' then c :: expandtabsGo cs 0
    else c :: expandtabsGo cs (col + 1)

def expandtabs (s : String) : String := String.mk (expandtabsGo s.data 0)

/-- `str.split('\n')` on a character list. -/
def splitOnNl : List Char → List (List Char)
  | [] => [[]]
  | c :: cs =>
    if c = '\n' then [] :: splitOnNl cs
    else
      match splitOnNl cs with
      | s :: ss => (c :: s) :: ss
      | [] => [[c]]

/-- `inspect.cleandoc`: expand tabs, strip the common leading margin of all
lines after the first, strip the first line, drop trailing then leading
blank lines. -/
def cleandoc (doc : String) : String :=
  let ls := splitOnNl (expandtabsGo doc.data 0)
  let margin : Option Nat := (ls.drop 1).foldl
    (fun m line =>
      let content := line.dropWhile Char.isWhitespace
      if content.isEmpty then m
      else
        let ind := line.length - content.length
        match m with
        | none => some ind
        | some b => some (min ind b)) none
  let ls := match ls with
    | [] => []
    | first :: rest =>
      let rest := match margin with
        | none => rest
        | some k => rest.map (fun (l : List Char) => l.drop k)
      first.dropWhile Char.isWhitespace :: rest
  let ls := (ls.reverse.dropWhile List.isEmpty).reverse
  let ls := ls.dropWhile List.isEmpty
  String.mk (List.intercalate ['\n'] ls)

/-- `inspect.getdoc`: the cleaned docstring, or `none` when the object has no
(string) docstring. The raw `__doc__` attribute is modelled as an
`Option String`. -/
def getdoc (d : Option String) : Option String := d.map cleandoc

/-- Python `a or b` on an optional string: falsy (`None` or empty) falls
through to `b`. -/
def pyOrStr (a : Option String) (b : String) : String :=
  match a with
  | none => b
  | some s => if s == "" then b else s

/-- `get_doc = lambda self, x: inspect.getdoc(x) or NO_DOC_STR`. -/
def get_doc (d : Option String) : String := pyOrStr (getdoc d) NO_DOC_STR

/-! ## The Python value model and the `inspect` predicates -/

/-- The kind of a non-module Python value, as far as the `inspect`
predicates used by `docbrowser.py` can distinguish them. `routine` stands
for the callables accepted by `inspect.isroutine` that are not plain
functions (methods, builtins, method descriptors). -/
inductive PyKind where
  | cls
  | function
  | routine
  | other
deriving DecidableEq, Repr

/-- A Python value as observed through the attributes the source reads:
either a module (identified by its qualified `__name__`, resolved via the
environment) or a non-module object with a kind, a `__module__` attribute,
a `__doc__` attribute and its own `getmembers` enumeration (used for the
methods feature). -/
inductive PyVal where
  | mod (qname : String)
  | obj (kind : PyKind) (moduleAttr : String) (doc : Option String)
      (members : List (String × PyVal))
deriving Repr

/-- A module: its `__doc__` and its `getmembers` enumeration. -/
structure PyModule where
  doc : Option String
  members : List (String × PyVal)
deriving Repr

/-- The finite module universe: qualified name to module. -/
abbrev Env := List (String × PyModule)

/-- Resolving a module object from its qualified name; a name outside the
environment denotes a module with no members and no docstring. -/
def lookupMod (env : Env) (q : String) : PyModule :=
  match env.find? (fun e => e.1 == q) with
  | some e => e.2
  | none => ⟨none, []⟩

def ismodule : PyVal → Bool
  | .mod _ => true
  | _ => false

def isclass : PyVal → Bool
  | .obj .cls _ _ _ => true
  | _ => false

def isfunction : PyVal → Bool
  | .obj .function _ _ _ => true
  | _ => false

def isroutine : PyVal → Bool
  | .obj .function _ _ _ => true
  | .obj .routine _ _ _ => true
  | _ => false

/-- `x.__name__` — only ever read on module values in the source. -/
def valName : PyVal → String
  | .mod q => q
  | .obj _ _ _ _ => ""

/-- `x.__module__` — only ever read on class/function/routine values. -/
def valModule : PyVal → String
  | .mod _ => ""
  | .obj _ m _ _ => m

/-- `x.__doc__` (a module's docstring lives in the environment). -/
def valDocAttr (env : Env) : PyVal → Option String
  | .mod q => (lookupMod env q).doc
  | .obj _ _ d _ => d

/-- The `getmembers` enumeration of a value (used for the methods pass). -/
def valMembers : PyVal → List (String × PyVal)
  | .mod _ => []
  | .obj _ _ _ ms => ms

/-- The name-keyed order `inspect.getmembers` sorts by. -/
def nameLe (a b : String × PyVal) : Prop := a.1 ≤ b.1

instance : DecidableRel nameLe := fun a b => inferInstanceAs (Decidable (a.1 ≤ b.1))

instance : IsTotal (String × PyVal) nameLe := ⟨fun a b => le_total a.1 b.1⟩

instance : IsTrans (String × PyVal) nameLe := ⟨fun _ _ _ h1 h2 => le_trans h1 h2⟩

/-- `inspect.getmembers(object, predicate)`: the matching `(name, value)`
pairs, sorted by name. -/
def getmembers (ms : List (String × PyVal)) (p : PyVal → Bool) :
    List (String × PyVal) :=
  (ms.filter (fun e => p e.2)).insertionSort nameLe

/-- Python `needle in hay` on strings: contiguous substring containment. -/
def pyIn (needle hay : String) : Bool :=
  hay.data.tails.any (fun t => needle.data.isPrefixOf t)

/-- `lambda x: inspect.ismodule(x) and module.__name__ in x.__name__`. -/
def pred_submodules (mname : String) (x : PyVal) : Bool :=
  ismodule x && pyIn mname (valName x)

/-- `lambda x: inspect.isclass(x) and x.__module__ == module.__name__`. -/
def pred_classes (mname : String) (x : PyVal) : Bool :=
  isclass x && (valModule x == mname)

/-- `lambda x: inspect.isfunction(x) and x.__module__ == module.__name__`. -/
def pred_functions (mname : String) (x : PyVal) : Bool :=
  isfunction x && (valModule x == mname)

/-- `lambda x: (inspect.isclass(x) or inspect.isroutine(x)) and
x.__module__ != module.__name__`. -/
def pred_imported (mname : String) (x : PyVal) : Bool :=
  (isclass x || isroutine x) && !(valModule x == mname)

/-- The submodule enumeration of a module: the recursion targets of
`_create_module_node`. Note it does not depend on the inclusion flags. -/
def recursionTargets (env : Env) (q : String) : List (String × PyVal) :=
  getmembers (lookupMod env q).members (pred_submodules q)

/-! ## Tree nodes and execution traces -/

/-- An `ObjectInspectorLabel` node of the inspector tree, together with the
children inserted beneath it (`TreeView.add_node` appends to the parent's
children). `noSel` is the `no_selection` flag that marks category grouping
nodes. -/
inductive Node where
  | mk (text : String) (doc : String) (isOpen : Bool) (noSel : Bool)
      (children : List Node)
deriving Repr

def Node.text : Node → String
  | .mk t _ _ _ _ => t

def Node.doc : Node → String
  | .mk _ d _ _ _ => d

def Node.isOpen : Node → Bool
  | .mk _ _ o _ _ => o

def Node.noSel : Node → Bool
  | .mk _ _ _ s _ => s

def Node.children : Node → List Node
  | .mk _ _ _ _ c => c

instance : Inhabited Node := ⟨.mk "" "" false false []⟩

mutual

/-- Every node of a tree, in insertion (pre-)order. -/
def allNodes : Node → List Node
  | .mk t d o s cs => .mk t d o s cs :: allNodesL cs

def allNodesL : List Node → List Node
  | [] => []
  | c :: cs => allNodes c ++ allNodesL cs

end

/-- One observable action of the builder generator, in execution order:
node insertions into the Tree Store, the in-place circular relabelling,
the recording of a module in the circular-reference guard, and the
generator suspensions (`yield`). -/
inductive Ev where
  | insModule (text : String) (doc : String)
  | markCircular
  | record (q : String)
  | insCategory (title : String) (count : Nat)
  | insMember (name : String) (doc : String)
  | insMethod (name : String) (doc : String)
  | yieldCtl
deriving DecidableEq, Repr

/-- The inclusion configuration: the `functions`, `imported` and `methods`
boolean properties (classes are always included). -/
structure Cfg where
  functions : Bool
  imported : Bool
  methods : Bool
deriving DecidableEq, Repr

/-- All inclusion flags enabled. -/
def allCfg : Cfg := ⟨true, true, true⟩

/-- `'[ %s (%d) ]' % (title, count)` — the label of a category node. -/
def catText (title : String) (count : Nat) : String :=
  "[ " ++ title ++ " (" ++ toString count ++ ") ]"

/-! ## The tree builder (`_create_module_node`, `_fill_category_node`) -/

/-- The methods of one category member, per the Python 3 branch
(`obj_filter = inspect.isroutine`). -/
def methodsOf (cfg : Cfg) (v : PyVal) : List (String × PyVal) :=
  if cfg.methods then getmembers (valMembers v) isroutine else []

/-- The leaf node inserted for one category member, with its method
children when the methods flag is active. -/
def memberNode (env : Env) (cfg : Cfg) (e : String × PyVal) : Node :=
  .mk e.1 (get_doc (valDocAttr env e.2)) false false
    ((methodsOf cfg e.2).map fun m =>
      .mk m.1 (get_doc (valDocAttr env m.2)) false false [])

/-- The trace of one loop iteration of `_fill_category_node`: insert the
member node, insert its method nodes (no suspension between them), then
`yield`. -/
def memberTrace (env : Env) (cfg : Cfg) (e : String × PyVal) : List Ev :=
  Ev.insMember e.1 (get_doc (valDocAttr env e.2)) ::
    ((methodsOf cfg e.2).map fun m =>
      Ev.insMethod m.1 (get_doc (valDocAttr env m.2))) ++ [Ev.yieldCtl]

/-- `_fill_category_node(module, obj_filter, title, parent)`: if the
filtered member list is empty nothing is inserted; otherwise a category
node labelled with the member count is inserted, then each member in turn,
suspending after each one. Returns the inserted nodes (to be appended to
the parent's children) and the trace. -/
def fill_category_node (env : Env) (cfg : Cfg) (ms : List (String × PyVal))
    (p : PyVal → Bool) (title : String) : List Node × List Ev :=
  let members := getmembers ms p
  if members.isEmpty then ([], [])
  else
    ([.mk (catText title members.length) "" false true
        (members.map (memberNode env cfg))],
     Ev.insCategory title members.length ::
       (members.map (memberTrace env cfg)).flatten)

/-- The three member categories processed after the submodules, in source
order: Classes (always), Functions (flag), Imported (flag). -/
def fill_categories (env : Env) (cfg : Cfg) (ms : List (String × PyVal))
    (q : String) : List Node × List Ev :=
  let c := fill_category_node env cfg ms (pred_classes q) "Classes"
  let f := if cfg.functions
    then fill_category_node env cfg ms (pred_functions q) "Functions"
    else ([], [])
  let i := if cfg.imported
    then fill_category_node env cfg ms (pred_imported q) "Imported"
    else ([], [])
  (c.1 ++ f.1 ++ i.1, c.2 ++ f.2 ++ i.2)

/-- Sequential recursion over the submodule list, threading the
circular-reference guard, with the module builder as a parameter. -/
def create_module_list
    (f : String → List String → Option (Node × List String × List Ev)) :
    List (String × PyVal) → List String →
    Option (List Node × List String × List Ev)
  | [], vis => some ([], vis, [])
  | e :: es, vis =>
    (f (valName e.2) vis).bind fun r1 =>
      (create_module_list f es r1.2.1).bind fun r2 =>
        some (r1.1 :: r2.1, r2.2.1, r1.2.2 ++ r2.2.2)

/-- The `Submodules` block of `_create_module_node`: when the submodule
enumeration is nonempty, a category node is inserted and every submodule
is built beneath it. -/
def fill_submodules
    (f : String → List String → Option (Node × List String × List Ev))
    (subs : List (String × PyVal)) (vis : List String) :
    Option (List Node × List String × List Ev) :=
  if subs.isEmpty then some ([], vis, [])
  else
    (create_module_list f subs vis).bind fun r =>
      some ([.mk (catText "Submodules" subs.length) "" false true r.1], r.2.1,
        Ev.insCategory "Submodules" subs.length :: r.2.2)

/-- `_create_module_node(module, parent)`, with explicit fuel for the
recursion over the (possibly circular) module graph. Returns the module's
tree node, the updated guard and the trace. On a module already present in
the guard, the node label gets the ` (circular)` suffix and the builder
returns without descending (and without yielding); otherwise the module is
recorded, the builder yields once, then processes submodules and the three
member categories. `isRoot` is `not parent`: it drives `is_open` and (at
the driver level) the root-node assignment. -/
def create_module_node (env : Env) (cfg : Cfg) :
    Nat → String → Bool → List String →
    Option (Node × List String × List Ev)
  | 0, _, _, _ => none
  | fuel + 1, q, isRoot, vis =>
    let m := lookupMod env q
    let label := "* " ++ q
    let doc := get_doc m.doc
    if q ∈ vis then
      some (.mk (label ++ " (circular)") doc isRoot false [], vis,
        [Ev.insModule label doc, Ev.markCircular])
    else
      (fill_submodules (fun q2 v => create_module_node env cfg fuel q2 false v)
          (recursionTargets env q) (vis ++ [q])).bind fun sub =>
        let cats := fill_categories env cfg m.members q
        some (.mk label doc isRoot false (sub.1 ++ cats.1), sub.2.1,
          [Ev.insModule label doc, Ev.record q, Ev.yieldCtl] ++ sub.2.2 ++ cats.2)

/-- The number of distinct module names in the environment, plus one: fuel
that provably suffices for any traversal. -/
def bound (env : Env) : Nat := (env.map Prod.fst).toFinset.card + 1

/-- A full traversal from an empty guard, run with sufficient fuel. -/
def runBuild (env : Env) (cfg : Cfg) (q : String) :
    Node × List String × List Ev :=
  (create_module_node env cfg (bound env) q true []).getD (default, [], [])

def runNode (env : Env) (cfg : Cfg) (q : String) : Node :=
  (runBuild env cfg q).1

def runVis (env : Env) (cfg : Cfg) (q : String) : List String :=
  (runBuild env cfg q).2.1

def runTrace (env : Env) (cfg : Cfg) (q : String) : List Ev :=
  (runBuild env cfg q).2.2

/-! ## The traversal driver (`_fill_tree`, `_load_complete`,
`load_documentation`)

A generator, as the driver observes it, is a list of resumption outcomes:
each `next()` call either runs one work unit and suspends (`yields`: the
nodes inserted, the guard entries appended, and whether the run's root
module node — and hence its doc — was set during this unit), finishes the
trailing work and raises `StopIteration` (`stops`), or raises some other
exception (`raises`). The builder above compiles to such a list via
`genOf`; the driver theorems are stated over arbitrary outcome lists,
matching the Python generator protocol. -/

/-- One resumption outcome of a generator. -/
inductive RStep where
  | yields (inserts : List (String × String)) (recs : List String)
      (setRoot : Option String)
  | stops (inserts : List (String × String)) (recs : List String)
      (setRoot : Option String)
  | raises (msg : String)
deriving DecidableEq, Repr

/-- The `(text, doc)` records a trace event inserts into the Tree Store. -/
def evInserts : Ev → List (String × String)
  | .insModule t d => [(t, d)]
  | .markCircular => []
  | .record _ => []
  | .insCategory t k => [(catText t k, "")]
  | .insMember n d => [(n, d)]
  | .insMethod n d => [(n, d)]
  | .yieldCtl => []

/-- The guard entries a trace event appends. -/
def evRecs : Ev → List String
  | .record q => [q]
  | _ => []

/-- Split a trace into resumption outcomes: one `yields` per `yield`, and
a final `stops` for the work after the last suspension. -/
def unitsGo : List Ev → List (String × String) → List String → List RStep
  | [], ins, recs => [RStep.stops ins recs none]
  | Ev.yieldCtl :: t, ins, recs => RStep.yields ins recs none :: unitsGo t [] []
  | e :: t, ins, recs => unitsGo t (ins ++ evInserts e) (recs ++ evRecs e)

/-- Mark the first resumption as the one that assigns
`self.__root_module_node` (the root call has no parent). -/
def withRootDoc (d : String) : List RStep → List RStep
  | RStep.yields i r _ :: t => RStep.yields i r (some d) :: t
  | RStep.stops i r _ :: t => RStep.stops i r (some d) :: t
  | g => g

/-- The generator `self.__gen = self._create_module_node(module)` as a
resumption-outcome list. -/
def genOf (env : Env) (cfg : Cfg) (q : String) : List RStep :=
  withRootDoc (get_doc (lookupMod env q).doc) (unitsGo (runTrace env cfg q) [] [])

/-- The progress popup: only its cancellation flag is observable. -/
structure Progress where
  canceled : Bool
deriving DecidableEq, Repr

/-- The `ObjectInspector` state the driver manipulates: `gen` is
`self.__gen` (`none` = idle), `progress` is `self.__progress`,
`submodules` is the circular-reference guard `self.__submodules`,
`rootDoc` is the `doc` of `self.__root_module_node` (`none` while that
attribute is still `None`), `tree` is the Tree Store contents as
`(text, doc)` records, `infoText` is `self.info.text`. `errors` collects
the `XError` messages shown so far and `completes` counts successful
finalizations (the host's completion signal). -/
structure Inspector where
  module_name : String
  gen : Option (List RStep)
  progress : Option Progress
  submodules : List String
  rootDoc : Option String
  tree : List (String × String)
  infoText : String
  errors : List String
  completes : Nat
deriving DecidableEq, Repr

/-- Apply one resumption's effects to the state. -/
def applyStep (s : Inspector) (ins : List (String × String))
    (recs : List String) (setRoot : Option String) : Inspector :=
  { s with tree := s.tree ++ ins, submodules := s.submodules ++ recs,
           rootDoc := match setRoot with
             | some d => some d
             | none => s.rootDoc }

/-- `_load_complete`: publish the root node's doc to the host view,
finalize the progress popup, drop the generator. Reading
`self.__root_module_node.doc` while that attribute is `None` raises
(`AttributeError`), modelled as the `Except.error` outcome. -/
def load_complete (s : Inspector) : Except String Inspector :=
  match s.rootDoc with
  | none => .error "AttributeError: NoneType object has no attribute doc"
  | some d => .ok { s with infoText := d, progress := none, gen := none,
                           completes := s.completes + 1 }

/-- One `_fill_tree` invocation: if the progress popup reports
cancellation, return without touching anything (note: the generator is not
dropped); otherwise resume the generator once. `StopIteration` and any
other exception both lead to `_load_complete`, the latter after an
`XError` report; a `next()` on an absent generator raises `TypeError`,
caught by the same handler. An uncaught exception escaping `_fill_tree`
(only possible from `_load_complete`) is the `Except.error` outcome. -/
def fill_tree (s : Inspector) : Except String Inspector :=
  if (s.progress.map Progress.canceled).getD false then .ok s
  else
    match s.gen with
    | none =>
      load_complete { s with errors :=
        s.errors ++ ["TypeError: NoneType object is not an iterator"] }
    | some [] => load_complete s
    | some (RStep.yields ins recs sr :: rest) =>
      .ok { applyStep s ins recs sr with gen := some rest }
    | some (RStep.stops ins recs sr :: _) =>
      load_complete (applyStep s ins recs sr)
    | some (RStep.raises m :: _) =>
      load_complete { s with errors := s.errors ++ [m] }

/-- Module resolution by dynamic import: succeeds exactly on the names the
environment can resolve. -/
def importOutcome (env : Env) (name : String) : Except String String :=
  if ((env.find? (fun e => e.1 == name)).isSome : Bool) then .ok name
  else .error ("No module named " ++ name)

/-- `load_documentation`: no-op on an empty name or an in-flight traversal;
on import failure report the error and stop; otherwise reset the guard,
clear the Tree Store, open a fresh progress popup, create the generator and
run the first `_fill_tree` step. -/
def load_documentation (env : Env) (cfg : Cfg) (s : Inspector) :
    Except String Inspector :=
  if s.module_name == "" || s.gen.isSome then .ok s
  else
    match importOutcome env s.module_name with
    | .error e => .ok { s with errors := s.errors ++ [e] }
    | .ok q =>
      fill_tree { s with submodules := [], tree := [],
                         progress := some ⟨false⟩,
                         gen := some (genOf env cfg q) }

/-! ## Observations on traces and trees -/

/-- The guard entry recorded by one trace event, if any. -/
def recName : Ev → Option String
  | Ev.record q => some q
  | _ => none

def isYieldEv : Ev → Bool
  | Ev.yieldCtl => true
  | _ => false

def isRecordEv : Ev → Bool
  | Ev.record _ => true
  | _ => false

def isMemberEv : Ev → Bool
  | Ev.insMember _ _ => true
  | _ => false

/-- The guard entries recorded by a trace, in order. -/
def recordsOf (t : List Ev) : List String := t.filterMap recName

def countYields (t : List Ev) : Nat := t.countP isYieldEv

def countRecords (t : List Ev) : Nat := t.countP isRecordEv

def countMembers (t : List Ev) : Nat := t.countP isMemberEv

/-- The states of the suspension-discipline automaton: `canYield` is
entered right after a module is recorded in the guard, `inMember` right
after a category member node (or one of its method nodes) is inserted.
`yield` is legal exactly in those two states. -/
inductive ScanSt where
  | neutral
  | canYield
  | inMember
deriving DecidableEq, Repr

/-- One transition of the suspension-discipline automaton; `none` is a
rejected trace. A `yield` may only follow the recording of a module or the
insertion of a member (possibly followed by its method nodes); after a
recording the builder must immediately yield; method nodes may only appear
right after their member, before the member's yield. -/
def scanStep : ScanSt → Ev → Option ScanSt
  | ScanSt.neutral, Ev.insModule _ _ => some ScanSt.neutral
  | ScanSt.neutral, Ev.markCircular => some ScanSt.neutral
  | ScanSt.neutral, Ev.insCategory _ _ => some ScanSt.neutral
  | ScanSt.neutral, Ev.record _ => some ScanSt.canYield
  | ScanSt.neutral, Ev.insMember _ _ => some ScanSt.inMember
  | ScanSt.canYield, Ev.yieldCtl => some ScanSt.neutral
  | ScanSt.inMember, Ev.insMethod _ _ => some ScanSt.inMember
  | ScanSt.inMember, Ev.yieldCtl => some ScanSt.neutral
  | _, _ => none

def scanList : List Ev → ScanSt → Option ScanSt
  | [], s => some s
  | e :: t, s =>
    match scanStep s e with
    | none => none
    | some s2 => scanList t s2

/-- The per-node invariant behind the category-count and the
doc-placeholder claims: a `no_selection` (category) node is nonempty and
its label carries exactly its child count; a childless node carries a
nonempty doc string. -/
def nodeInv (m : Node) : Prop :=
  (m.noSel = true → m.children ≠ [] ∧
    ∃ title, m.text = catText title m.children.length) ∧
  (m.children = [] → m.doc ≠ "")

/-- Children of one category node, listed in ascending label order. -/
def sortedTexts (cs : List Node) : Prop :=
  List.Pairwise (fun a b => Node.text a ≤ Node.text b) cs

/-- The category-ordering discipline of a module node: its children are
(at most) a Submodules group, then a Classes group, then — only with the
respective flag set — a Functions and an Imported group; member groups
list their children in ascending name order, and everything beneath a
Submodules group again satisfies the discipline. -/
inductive OrderedModule (cfg : Cfg) : Node → Prop where
  | intro (t d : String) (o : Bool) (s c f i : List Node)
      (hs : s = [] ∨ ∃ k cs, s = [Node.mk (catText "Submodules" k) "" false true cs])
      (hrec : ∀ x ∈ s, ∀ y ∈ Node.children x, OrderedModule cfg y)
      (hc : c = [] ∨ ∃ k cs,
        c = [Node.mk (catText "Classes" k) "" false true cs] ∧ sortedTexts cs)
      (hf : f = [] ∨ (cfg.functions = true ∧ ∃ k cs,
        f = [Node.mk (catText "Functions" k) "" false true cs] ∧ sortedTexts cs))
      (hi : i = [] ∨ (cfg.imported = true ∧ ∃ k cs,
        i = [Node.mk (catText "Imported" k) "" false true cs] ∧ sortedTexts cs)) :
      OrderedModule cfg (Node.mk t d o false (s ++ (c ++ f ++ i)))

/-! ## Lemmas: the documentation extractor -/

theorem NO_DOC_STR_ne_empty : NO_DOC_STR ≠ "" := by decide

theorem get_doc_none : get_doc none = NO_DOC_STR := rfl

theorem get_doc_some (s : String) :
    get_doc (some s) = if cleandoc s == "" then NO_DOC_STR else cleandoc s := rfl

theorem get_doc_ne_empty (d : Option String) : get_doc d ≠ "" := by
  cases d with
  | none => exact NO_DOC_STR_ne_empty
  | some s =>
    rw [get_doc_some]
    split
    · exact NO_DOC_STR_ne_empty
    · next h => simpa using h

/-! ## Lemmas: `getmembers` -/

theorem getmembers_sorted (ms : List (String × PyVal)) (p : PyVal → Bool) :
    List.Pairwise nameLe (getmembers ms p) :=
  List.sorted_insertionSort nameLe _

theorem mem_getmembers {ms : List (String × PyVal)} {p : PyVal → Bool}
    {e : String × PyVal} : e ∈ getmembers ms p ↔ e ∈ ms ∧ p e.2 = true := by
  unfold getmembers
  rw [List.mem_insertionSort, List.mem_filter]

/-! ## Lemmas: trace combinators -/

theorem recordsOf_append (a b : List Ev) :
    recordsOf (a ++ b) = recordsOf a ++ recordsOf b := by
  simp [recordsOf]

theorem countYields_append (a b : List Ev) :
    countYields (a ++ b) = countYields a + countYields b := by
  simp [countYields]

theorem countRecords_append (a b : List Ev) :
    countRecords (a ++ b) = countRecords a + countRecords b := by
  simp [countRecords]

theorem countMembers_append (a b : List Ev) :
    countMembers (a ++ b) = countMembers a + countMembers b := by
  simp [countMembers]

theorem scanList_append (a b : List Ev) (s : ScanSt) :
    scanList (a ++ b) s = match scanList a s with
      | none => none
      | some s2 => scanList b s2 := by
  induction a generalizing s with
  | nil => simp [scanList]
  | cons e t ih =>
    rw [List.cons_append, scanList, scanList]
    cases scanStep s e with
    | none => rfl
    | some s2 => exact ih s2

theorem allNodesL_append (a b : List Node) :
    allNodesL (a ++ b) = allNodesL a ++ allNodesL b := by
  induction a with
  | nil => simp [allNodesL]
  | cons c cs ih => rw [List.cons_append, allNodesL, allNodesL, ih, List.append_assoc]

/-! ## Lemmas: `_fill_category_node` pieces -/

theorem memberTrace_records (env : Env) (cfg : Cfg) (e : String × PyVal) :
    recordsOf (memberTrace env cfg e) = [] := by
  simp [memberTrace, recordsOf, List.filterMap_map, recName, Function.comp]

theorem memberTrace_counts (env : Env) (cfg : Cfg) (e : String × PyVal) :
    countYields (memberTrace env cfg e) = 1 ∧
    countRecords (memberTrace env cfg e) = 0 ∧
    countMembers (memberTrace env cfg e) = 1 := by
  refine ⟨?_, ?_, ?_⟩ <;>
    simp [memberTrace, countYields, countRecords, countMembers,
      List.countP_cons, List.countP_map, Function.comp,
      isYieldEv, isRecordEv, isMemberEv, List.countP_eq_zero]

theorem scanList_methods (ms : List Ev)
    (h : ∀ e ∈ ms, ∃ n d, e = Ev.insMethod n d) :
    scanList ms ScanSt.inMember = some ScanSt.inMember := by
  induction ms with
  | nil => rfl
  | cons e t ih =>
    obtain ⟨n, d, rfl⟩ := h e (by simp)
    rw [scanList]
    exact ih fun x hx => h x (by simp [hx])

theorem scanList_cons (e : Ev) (t : List Ev) (s : ScanSt) :
    scanList (e :: t) s = match scanStep s e with
      | none => none
      | some s2 => scanList t s2 := rfl

theorem memberTrace_scan (env : Env) (cfg : Cfg) (e : String × PyVal) :
    scanList (memberTrace env cfg e) ScanSt.neutral = some ScanSt.neutral := by
  have h1 : scanList (Ev.insMember e.1 (get_doc (valDocAttr env e.2)) ::
      (methodsOf cfg e.2).map
        (fun m => Ev.insMethod m.1 (get_doc (valDocAttr env m.2))))
      ScanSt.neutral = some ScanSt.inMember := by
    rw [scanList_cons]
    show scanList _ ScanSt.inMember = _
    apply scanList_methods
    intro x hx
    simp only [List.mem_map] at hx
    obtain ⟨m, _, rfl⟩ := hx
    exact ⟨_, _, rfl⟩
  unfold memberTrace
  rw [scanList_append, h1]
  rfl

theorem memberTraces_records (env : Env) (cfg : Cfg)
    (members : List (String × PyVal)) :
    recordsOf (members.map (memberTrace env cfg)).flatten = [] := by
  induction members with
  | nil => simp [recordsOf]
  | cons e t ih =>
    rw [List.map_cons, List.flatten_cons, recordsOf_append,
      memberTrace_records, ih]
    rfl

theorem memberTraces_counts (env : Env) (cfg : Cfg)
    (members : List (String × PyVal)) :
    countYields (members.map (memberTrace env cfg)).flatten =
      countRecords (members.map (memberTrace env cfg)).flatten +
      countMembers (members.map (memberTrace env cfg)).flatten := by
  induction members with
  | nil => simp [countYields, countRecords, countMembers]
  | cons e t ih =>
    rw [List.map_cons, List.flatten_cons, countYields_append,
      countRecords_append, countMembers_append, ih]
    obtain ⟨h1, h2, h3⟩ := memberTrace_counts env cfg e
    rw [h1, h2, h3]
    omega

theorem memberTraces_scan (env : Env) (cfg : Cfg)
    (members : List (String × PyVal)) :
    scanList (members.map (memberTrace env cfg)).flatten ScanSt.neutral =
      some ScanSt.neutral := by
  induction members with
  | nil => rfl
  | cons e t ih =>
    rw [List.map_cons, List.flatten_cons, scanList_append, memberTrace_scan]
    exact ih

theorem fill_category_node_records (env : Env) (cfg : Cfg)
    (ms : List (String × PyVal)) (p : PyVal → Bool) (title : String) :
    recordsOf (fill_category_node env cfg ms p title).2 = [] := by
  simp only [fill_category_node]
  split
  · simp [recordsOf]
  · show recordsOf (Ev.insCategory _ _ :: _) = []
    unfold recordsOf at *
    rw [List.filterMap_cons]
    show recordsOf _ = []
    exact memberTraces_records env cfg _

theorem fill_category_node_counts (env : Env) (cfg : Cfg)
    (ms : List (String × PyVal)) (p : PyVal → Bool) (title : String) :
    countYields (fill_category_node env cfg ms p title).2 =
      countRecords (fill_category_node env cfg ms p title).2 +
      countMembers (fill_category_node env cfg ms p title).2 := by
  simp only [fill_category_node]
  split
  · simp [countYields, countRecords, countMembers]
  · show countYields (Ev.insCategory _ _ :: _) = _
    have := memberTraces_counts env cfg (getmembers ms p)
    simp only [countYields, countRecords, countMembers] at this ⊢
    simp [List.countP_cons, isYieldEv, isRecordEv, isMemberEv] at this ⊢
    omega

theorem fill_category_node_scan (env : Env) (cfg : Cfg)
    (ms : List (String × PyVal)) (p : PyVal → Bool) (title : String) :
    scanList (fill_category_node env cfg ms p title).2 ScanSt.neutral =
      some ScanSt.neutral := by
  simp only [fill_category_node]
  split
  · rfl
  · show scanList (Ev.insCategory _ _ :: _) _ = _
    rw [scanList]
    exact memberTraces_scan env cfg _

/-! ## Lemmas: evolution of the circular-reference guard -/

theorem create_module_list_vis
    {f : String → List String → Option (Node × List String × List Ev)}
    (hf : ∀ q vis r, f q vis = some r →
      r.2.1 = vis ++ recordsOf r.2.2 ∧ (vis.Nodup → r.2.1.Nodup)) :
    ∀ ms vis r, create_module_list f ms vis = some r →
      r.2.1 = vis ++ recordsOf r.2.2 ∧ (vis.Nodup → r.2.1.Nodup) := by
  intro ms
  induction ms with
  | nil =>
    intro vis r h
    simp only [create_module_list, Option.some.injEq] at h
    subst h
    simp [recordsOf]
  | cons e es ih =>
    intro vis r h
    simp only [create_module_list, Option.bind_eq_some] at h
    obtain ⟨r1, h1, r2, h2, h3⟩ := h
    obtain ⟨hv1, hn1⟩ := hf _ _ _ h1
    obtain ⟨hv2, hn2⟩ := ih _ _ h2
    obtain rfl := (Option.some.inj h3).symm
    constructor
    · show r2.2.1 = vis ++ recordsOf (r1.2.2 ++ r2.2.2)
      rw [hv2, hv1, recordsOf_append, List.append_assoc]
    · intro hnd
      exact hn2 (hn1 hnd)

theorem fill_submodules_vis
    {f : String → List String → Option (Node × List String × List Ev)}
    (hf : ∀ q vis r, f q vis = some r →
      r.2.1 = vis ++ recordsOf r.2.2 ∧ (vis.Nodup → r.2.1.Nodup)) :
    ∀ subs vis r, fill_submodules f subs vis = some r →
      r.2.1 = vis ++ recordsOf r.2.2 ∧ (vis.Nodup → r.2.1.Nodup) := by
  intro subs vis r h
  unfold fill_submodules at h
  split at h
  · obtain rfl := (Option.some.inj h).symm
    simp [recordsOf]
  · simp only [Option.bind_eq_some] at h
    obtain ⟨r1, h1, h2⟩ := h
    obtain ⟨hv1, hn1⟩ := create_module_list_vis hf _ _ _ h1
    obtain rfl := (Option.some.inj h2).symm
    exact ⟨by simpa [recordsOf] using hv1, hn1⟩

theorem recordsOf_nil : recordsOf [] = [] := rfl

theorem fill_categories_records (env : Env) (cfg : Cfg)
    (ms : List (String × PyVal)) (q : String) :
    recordsOf (fill_categories env cfg ms q).2 = [] := by
  unfold fill_categories
  split <;> split <;>
    simp only [recordsOf_append, fill_category_node_records, recordsOf_nil,
      List.append_nil, List.nil_append]

theorem create_module_node_vis (env : Env) (cfg : Cfg) :
    ∀ fuel q root vis r, create_module_node env cfg fuel q root vis = some r →
      r.2.1 = vis ++ recordsOf r.2.2 ∧ (vis.Nodup → r.2.1.Nodup) := by
  intro fuel
  induction fuel with
  | zero =>
    intro q root vis r h
    simp [create_module_node] at h
  | succ fuel ih =>
    intro q root vis r h
    rw [create_module_node] at h
    split at h
    · next hmem =>
      obtain rfl := (Option.some.inj h).symm
      simp [recordsOf, recName]
    · next hmem =>
      simp only [Option.bind_eq_some] at h
      obtain ⟨sub, hsub, h2⟩ := h
      obtain ⟨hv, hn⟩ := fill_submodules_vis
        (fun q2 v r2 hr2 => ih q2 false v r2 hr2) _ _ _ hsub
      obtain rfl := (Option.some.inj h2).symm
      constructor
      · show sub.2.1 = vis ++ recordsOf _
        rw [recordsOf_append, recordsOf_append, fill_categories_records,
          List.append_nil, hv]
        simp [recordsOf, recName, List.append_assoc]
      · intro hnd
        apply hn
        rw [← List.concat_eq_append]
        exact hnd.concat hmem

/-! ## Lemmas: termination (fuel `bound env` suffices) -/

/-- The set of module names the environment can resolve. -/
def keysF (env : Env) : Finset String := (env.map Prod.fst).toFinset

/-- The termination measure: resolvable module names not yet visited. -/
def unvis (env : Env) (vis : List String) : Nat :=
  (keysF env \ vis.toFinset).card

theorem unvis_le (env : Env) {vis vis2 : List String}
    (h : ∀ x ∈ vis, x ∈ vis2) : unvis env vis2 ≤ unvis env vis := by
  apply Finset.card_le_card
  apply Finset.sdiff_subset_sdiff le_rfl
  intro x hx
  rw [List.mem_toFinset] at hx ⊢
  exact h x hx

theorem unvis_strict (env : Env) {vis : List String} {q : String}
    (hq : q ∈ keysF env) (hnv : q ∉ vis) :
    unvis env (vis ++ [q]) < unvis env vis := by
  apply Finset.card_lt_card
  rw [Finset.ssubset_iff_of_subset]
  · exact ⟨q, by simp [Finset.mem_sdiff, hq, List.mem_toFinset, hnv],
      by simp [Finset.mem_sdiff]⟩
  · apply Finset.sdiff_subset_sdiff le_rfl
    intro x hx
    rw [List.mem_toFinset] at hx ⊢
    simp [hx]

theorem mem_keysF_of_members {env : Env} {q : String}
    (h : (lookupMod env q).members ≠ []) : q ∈ keysF env := by
  unfold lookupMod at h
  cases hf : env.find? (fun e => e.1 == q) with
  | none => rw [hf] at h; simp at h
  | some e =>
    have h1 := List.find?_some hf
    have h2 : e ∈ env := List.mem_of_find?_eq_some hf
    simp only [beq_iff_eq] at h1
    unfold keysF
    rw [List.mem_toFinset, List.mem_map]
    exact ⟨e, h2, h1⟩

theorem create_module_list_total
    {f : String → List String → Option (Node × List String × List Ev)}
    {env : Env} {fuel : Nat}
    (hftot : ∀ q vis, unvis env vis < fuel → (f q vis).isSome)
    (hfvis : ∀ q vis r, f q vis = some r → ∃ ext, r.2.1 = vis ++ ext) :
    ∀ ms vis, unvis env vis < fuel →
      (create_module_list f ms vis).isSome := by
  intro ms
  induction ms with
  | nil => intro vis _; simp [create_module_list]
  | cons e es ih =>
    intro vis h
    obtain ⟨r1, hr1⟩ := Option.isSome_iff_exists.mp (hftot (valName e.2) vis h)
    obtain ⟨ext, hext⟩ := hfvis _ _ _ hr1
    have h2 : unvis env r1.2.1 < fuel := by
      apply lt_of_le_of_lt _ h
      apply unvis_le
      intro x hx
      rw [hext]
      exact List.mem_append_left _ hx
    obtain ⟨r2, hr2⟩ := Option.isSome_iff_exists.mp (ih r1.2.1 h2)
    rw [create_module_list, hr1]
    simp [hr2]

theorem create_module_node_total (env : Env) (cfg : Cfg) :
    ∀ fuel q root vis, unvis env vis < fuel →
      (create_module_node env cfg fuel q root vis).isSome := by
  intro fuel
  induction fuel with
  | zero => intro q root vis h; omega
  | succ fuel ih =>
    intro q root vis h
    rw [create_module_node]
    split
    · simp
    · next hmem =>
      by_cases hsubs : (recursionTargets env q).isEmpty
      · unfold fill_submodules
        rw [if_pos hsubs]
        simp
      · have hq : q ∈ keysF env := by
          apply mem_keysF_of_members
          intro hmem0
          apply hsubs
          unfold recursionTargets
          rw [hmem0]
          rfl
        have hlt : unvis env (vis ++ [q]) < fuel := by
          have hs := unvis_strict env hq hmem
          omega
        have htot := create_module_list_total
          (f := fun q2 v => create_module_node env cfg fuel q2 false v)
          (fun q2 v hv => ih q2 false v hv)
          (fun q2 v r hr =>
            ⟨recordsOf r.2.2, (create_module_node_vis env cfg fuel q2 false v r hr).1⟩)
          (recursionTargets env q) (vis ++ [q]) hlt
        obtain ⟨rl, hrl⟩ := Option.isSome_iff_exists.mp htot
        unfold fill_submodules
        rw [if_neg hsubs, hrl]
        simp

/-- With fuel `bound env`, a traversal from the empty guard always
returns a result. -/
theorem create_module_node_bound_total (env : Env) (cfg : Cfg) (q : String)
    (root : Bool) :
    (create_module_node env cfg (bound env) q root []).isSome := by
  apply create_module_node_total
  show unvis env [] < (env.map Prod.fst).toFinset.card + 1
  unfold unvis keysF
  simp only [List.toFinset_nil, Finset.sdiff_empty]
  omega

/-! ## Unfolding lemmas for `create_module_node` -/

/-- The circular branch: one node, suffixed label, unchanged guard, no
`record` and no `yield`, and the documentation lookup still performed. -/
theorem create_module_node_circular (env : Env) (cfg : Cfg) (fuel : Nat)
    (q : String) (root : Bool) (vis : List String) (hmem : q ∈ vis) :
    create_module_node env cfg (fuel + 1) q root vis =
      some (Node.mk ("* " ++ q ++ " (circular)") (get_doc (lookupMod env q).doc)
          root false [], vis,
        [Ev.insModule ("* " ++ q) (get_doc (lookupMod env q).doc),
          Ev.markCircular]) := by
  simp only [create_module_node]
  rw [if_pos hmem]

/-- The expansion branch. -/
theorem create_module_node_expand (env : Env) (cfg : Cfg) (fuel : Nat)
    (q : String) (root : Bool) (vis : List String) (hmem : q ∉ vis) :
    create_module_node env cfg (fuel + 1) q root vis =
      (fill_submodules (fun q2 v => create_module_node env cfg fuel q2 false v)
          (recursionTargets env q) (vis ++ [q])).bind fun sub =>
        some (Node.mk ("* " ++ q) (get_doc (lookupMod env q).doc) root false
            (sub.1 ++ (fill_categories env cfg (lookupMod env q).members q).1),
          sub.2.1,
          [Ev.insModule ("* " ++ q) (get_doc (lookupMod env q).doc),
            Ev.record q, Ev.yieldCtl] ++ sub.2.2 ++
            (fill_categories env cfg (lookupMod env q).members q).2) := by
  simp only [create_module_node]
  rw [if_neg hmem]

/-! ## Lemmas: the suspension discipline of the trace -/

theorem scanList_nn_append {a b : List Ev}
    (ha : scanList a ScanSt.neutral = some ScanSt.neutral)
    (hb : scanList b ScanSt.neutral = some ScanSt.neutral) :
    scanList (a ++ b) ScanSt.neutral = some ScanSt.neutral := by
  rw [scanList_append, ha]
  exact hb

theorem fill_categories_scan (env : Env) (cfg : Cfg)
    (ms : List (String × PyVal)) (q : String) :
    scanList (fill_categories env cfg ms q).2 ScanSt.neutral =
      some ScanSt.neutral := by
  unfold fill_categories
  split <;> split <;>
    exact scanList_nn_append
      (scanList_nn_append (fill_category_node_scan _ _ _ _ _) (by first | rfl | exact fill_category_node_scan _ _ _ _ _))
      (by first | rfl | exact fill_category_node_scan _ _ _ _ _)

theorem create_module_list_scan
    {f : String → List String → Option (Node × List String × List Ev)}
    (hf : ∀ q vis r, f q vis = some r →
      scanList r.2.2 ScanSt.neutral = some ScanSt.neutral) :
    ∀ ms vis r, create_module_list f ms vis = some r →
      scanList r.2.2 ScanSt.neutral = some ScanSt.neutral := by
  intro ms
  induction ms with
  | nil =>
    intro vis r h
    simp only [create_module_list, Option.some.injEq] at h
    subst h
    rfl
  | cons e es ih =>
    intro vis r h
    simp only [create_module_list, Option.bind_eq_some] at h
    obtain ⟨r1, h1, r2, h2, h3⟩ := h
    obtain rfl := (Option.some.inj h3).symm
    exact scanList_nn_append (hf _ _ _ h1) (ih _ _ h2)

theorem fill_submodules_scan
    {f : String → List String → Option (Node × List String × List Ev)}
    (hf : ∀ q vis r, f q vis = some r →
      scanList r.2.2 ScanSt.neutral = some ScanSt.neutral) :
    ∀ subs vis r, fill_submodules f subs vis = some r →
      scanList r.2.2 ScanSt.neutral = some ScanSt.neutral := by
  intro subs vis r h
  unfold fill_submodules at h
  split at h
  · obtain rfl := (Option.some.inj h).symm
    rfl
  · simp only [Option.bind_eq_some] at h
    obtain ⟨r1, h1, h2⟩ := h
    obtain rfl := (Option.some.inj h2).symm
    show scanList (Ev.insCategory _ _ :: _) _ = _
    rw [scanList_cons]
    exact create_module_list_scan hf _ _ _ h1

/-- Every trace of the builder observes the suspension discipline and ends
outside a work unit. -/
theorem create_module_node_scan (env : Env) (cfg : Cfg) :
    ∀ fuel q root vis r, create_module_node env cfg fuel q root vis = some r →
      scanList r.2.2 ScanSt.neutral = some ScanSt.neutral := by
  intro fuel
  induction fuel with
  | zero =>
    intro q root vis r h
    simp [create_module_node] at h
  | succ fuel ih =>
    intro q root vis r h
    by_cases hmem : q ∈ vis
    · rw [create_module_node_circular env cfg fuel q root vis hmem] at h
      obtain rfl := (Option.some.inj h).symm
      rfl
    · rw [create_module_node_expand env cfg fuel q root vis hmem] at h
      simp only [Option.bind_eq_some] at h
      obtain ⟨sub, hsub, h2⟩ := h
      obtain rfl := (Option.some.inj h2).symm
      show scanList ((_ ++ sub.2.2) ++ _) _ = _
      refine scanList_nn_append (scanList_nn_append ?_ ?_) ?_
      · rfl
      · exact fill_submodules_scan (fun q2 v r2 hr2 => ih q2 false v r2 hr2)
          _ _ _ hsub
      · exact fill_categories_scan env cfg _ q

/-! ## Lemmas: one yield per recorded module and per inserted member -/

theorem countsBalanced_append {a b : List Ev}
    (ha : countYields a = countRecords a + countMembers a)
    (hb : countYields b = countRecords b + countMembers b) :
    countYields (a ++ b) = countRecords (a ++ b) + countMembers (a ++ b) := by
  rw [countYields_append, countRecords_append, countMembers_append, ha, hb]
  omega

theorem fill_categories_counts (env : Env) (cfg : Cfg)
    (ms : List (String × PyVal)) (q : String) :
    countYields (fill_categories env cfg ms q).2 =
      countRecords (fill_categories env cfg ms q).2 +
      countMembers (fill_categories env cfg ms q).2 := by
  unfold fill_categories
  split <;> split <;>
    exact countsBalanced_append
      (countsBalanced_append (fill_category_node_counts _ _ _ _ _)
        (by first | rfl | exact fill_category_node_counts _ _ _ _ _))
      (by first | rfl | exact fill_category_node_counts _ _ _ _ _)

theorem create_module_list_counts
    {f : String → List String → Option (Node × List String × List Ev)}
    (hf : ∀ q vis r, f q vis = some r →
      countYields r.2.2 = countRecords r.2.2 + countMembers r.2.2) :
    ∀ ms vis r, create_module_list f ms vis = some r →
      countYields r.2.2 = countRecords r.2.2 + countMembers r.2.2 := by
  intro ms
  induction ms with
  | nil =>
    intro vis r h
    simp only [create_module_list, Option.some.injEq] at h
    subst h
    rfl
  | cons e es ih =>
    intro vis r h
    simp only [create_module_list, Option.bind_eq_some] at h
    obtain ⟨r1, h1, r2, h2, h3⟩ := h
    obtain rfl := (Option.some.inj h3).symm
    exact countsBalanced_append (hf _ _ _ h1) (ih _ _ h2)

theorem fill_submodules_counts
    {f : String → List String → Option (Node × List String × List Ev)}
    (hf : ∀ q vis r, f q vis = some r →
      countYields r.2.2 = countRecords r.2.2 + countMembers r.2.2) :
    ∀ subs vis r, fill_submodules f subs vis = some r →
      countYields r.2.2 = countRecords r.2.2 + countMembers r.2.2 := by
  intro subs vis r h
  unfold fill_submodules at h
  split at h
  · obtain rfl := (Option.some.inj h).symm
    rfl
  · simp only [Option.bind_eq_some] at h
    obtain ⟨r1, h1, h2⟩ := h
    obtain rfl := (Option.some.inj h2).symm
    have := create_module_list_counts hf _ _ _ h1
    show countYields (Ev.insCategory _ _ :: _) = _
    simp only [countYields, countRecords, countMembers, List.countP_cons,
      isYieldEv, isRecordEv, isMemberEv] at this ⊢
    simp at this ⊢
    omega

/-- Every trace of the builder yields exactly once per recorded module and
once per inserted category member. -/
theorem create_module_node_counts (env : Env) (cfg : Cfg) :
    ∀ fuel q root vis r, create_module_node env cfg fuel q root vis = some r →
      countYields r.2.2 = countRecords r.2.2 + countMembers r.2.2 := by
  intro fuel
  induction fuel with
  | zero =>
    intro q root vis r h
    simp [create_module_node] at h
  | succ fuel ih =>
    intro q root vis r h
    by_cases hmem : q ∈ vis
    · rw [create_module_node_circular env cfg fuel q root vis hmem] at h
      obtain rfl := (Option.some.inj h).symm
      rfl
    · rw [create_module_node_expand env cfg fuel q root vis hmem] at h
      simp only [Option.bind_eq_some] at h
      obtain ⟨sub, hsub, h2⟩ := h
      obtain rfl := (Option.some.inj h2).symm
      show countYields ((_ ++ sub.2.2) ++ _) = _
      refine countsBalanced_append (countsBalanced_append ?_ ?_) ?_
      · rfl
      · exact fill_submodules_counts (fun q2 v r2 hr2 => ih q2 false v r2 hr2)
          _ _ _ hsub
      · exact fill_categories_counts env cfg _ q

/-! ## Lemmas: per-node tree invariants -/

theorem allNodes_eq (n : Node) : allNodes n = n :: allNodesL n.children := by
  cases n
  rfl

theorem allNodesL_forall {P : Node → Prop} :
    ∀ {l : List Node}, (∀ x ∈ l, ∀ m ∈ allNodes x, P m) →
      ∀ m ∈ allNodesL l, P m := by
  intro l
  induction l with
  | nil => intro _ m hm; simp [allNodesL] at hm
  | cons c cs ih =>
    intro h m hm
    rw [allNodesL, List.mem_append] at hm
    rcases hm with hm | hm
    · exact h c (by simp) m hm
    · exact ih (fun x hx => h x (by simp [hx])) m hm

theorem create_module_list_length
    {f : String → List String → Option (Node × List String × List Ev)} :
    ∀ ms vis r, create_module_list f ms vis = some r →
      r.1.length = ms.length := by
  intro ms
  induction ms with
  | nil =>
    intro vis r h
    simp only [create_module_list, Option.some.injEq] at h
    subst h
    rfl
  | cons e es ih =>
    intro vis r h
    simp only [create_module_list, Option.bind_eq_some] at h
    obtain ⟨r1, _, r2, h2, h3⟩ := h
    obtain rfl := (Option.some.inj h3).symm
    show (r1.1 :: r2.1).length = _
    rw [List.length_cons, ih _ _ h2]
    rfl

theorem create_module_list_each
    {f : String → List String → Option (Node × List String × List Ev)}
    (P : Node → Prop)
    (hf : ∀ q vis r, f q vis = some r → P r.1) :
    ∀ ms vis r, create_module_list f ms vis = some r → ∀ x ∈ r.1, P x := by
  intro ms
  induction ms with
  | nil =>
    intro vis r h
    simp only [create_module_list, Option.some.injEq] at h
    subst h
    simp
  | cons e es ih =>
    intro vis r h
    simp only [create_module_list, Option.bind_eq_some] at h
    obtain ⟨r1, h1, r2, h2, h3⟩ := h
    obtain rfl := (Option.some.inj h3).symm
    intro x hx
    rcases List.mem_cons.mp hx with rfl | hx2
    · exact hf _ _ _ h1
    · exact ih _ _ h2 x hx2

theorem nodeInv_plain (t : String) {d : String} (o : Bool) (cs : List Node)
    (hd : d ≠ "") : nodeInv (Node.mk t d o false cs) := by
  constructor
  · intro h
    simp [Node.noSel] at h
  · intro _
    exact hd

theorem nodeInv_category (title : String) {cs : List Node} {k : Nat}
    (hk : k = cs.length) (hne : cs ≠ []) :
    nodeInv (Node.mk (catText title k) "" false true cs) := by
  constructor
  · intro _
    exact ⟨hne, title, by subst hk; rfl⟩
  · intro hc
    exact absurd hc hne

theorem memberNode_allNodes_inv (env : Env) (cfg : Cfg) (e : String × PyVal) :
    ∀ m ∈ allNodes (memberNode env cfg e), nodeInv m := by
  intro m hm
  unfold memberNode at hm
  rw [allNodes] at hm
  rcases List.mem_cons.mp hm with rfl | hm2
  · exact nodeInv_plain _ _ _ (get_doc_ne_empty _)
  · revert hm2
    generalize methodsOf cfg e.2 = methods
    induction methods with
    | nil => intro hm2; simp [allNodesL] at hm2
    | cons a t ih =>
      intro hm2
      rw [List.map_cons, allNodesL, List.mem_append] at hm2
      rcases hm2 with hm2 | hm2
      · rw [allNodes] at hm2
        rcases List.mem_cons.mp hm2 with rfl | hm3
        · exact nodeInv_plain _ _ _ (get_doc_ne_empty _)
        · simp [Node.children, allNodesL] at hm3
      · exact ih hm2

theorem fill_category_node_inv (env : Env) (cfg : Cfg)
    (ms : List (String × PyVal)) (p : PyVal → Bool) (title : String) :
    ∀ m ∈ allNodesL (fill_category_node env cfg ms p title).1, nodeInv m := by
  simp only [fill_category_node]
  split
  · intro m hm
    simp [allNodesL] at hm
  · next hne =>
    intro m hm
    rw [allNodesL, allNodesL, List.append_nil, allNodes, List.mem_cons] at hm
    rcases hm with rfl | hm2
    · apply nodeInv_category
      · rw [List.length_map]
      · intro hnil
        rw [List.map_eq_nil_iff] at hnil
        rw [hnil] at hne
        simp at hne
    · refine allNodesL_forall ?_ m hm2
      intro x hx
      simp only [List.mem_map] at hx
      obtain ⟨e, _, rfl⟩ := hx
      exact memberNode_allNodes_inv env cfg e

theorem fill_categories_inv (env : Env) (cfg : Cfg)
    (ms : List (String × PyVal)) (q : String) :
    ∀ m ∈ allNodesL (fill_categories env cfg ms q).1, nodeInv m := by
  unfold fill_categories
  intro m hm
  split at hm <;> split at hm <;>
    (simp only [allNodesL_append, List.mem_append] at hm;
     rcases hm with (hm | hm) | hm <;>
       first
         | exact fill_category_node_inv env cfg ms _ _ m hm
         | simp [allNodesL] at hm)

/-- Every node of every tree the builder produces satisfies `nodeInv`. -/
theorem create_module_node_inv (env : Env) (cfg : Cfg) :
    ∀ fuel q root vis r, create_module_node env cfg fuel q root vis = some r →
      ∀ m ∈ allNodes r.1, nodeInv m := by
  intro fuel
  induction fuel with
  | zero =>
    intro q root vis r h
    simp [create_module_node] at h
  | succ fuel ih =>
    intro q root vis r h
    by_cases hmem : q ∈ vis
    · rw [create_module_node_circular env cfg fuel q root vis hmem] at h
      obtain rfl := (Option.some.inj h).symm
      intro m hm
      rw [allNodes] at hm
      rcases List.mem_cons.mp hm with rfl | hm2
      · exact nodeInv_plain _ _ _ (get_doc_ne_empty _)
      · simp [allNodesL] at hm2
    · rw [create_module_node_expand env cfg fuel q root vis hmem] at h
      simp only [Option.bind_eq_some] at h
      obtain ⟨sub, hsub, h2⟩ := h
      obtain rfl := (Option.some.inj h2).symm
      intro m hm
      rw [allNodes] at hm
      rcases List.mem_cons.mp hm with rfl | hm2
      · exact nodeInv_plain _ _ _ (get_doc_ne_empty _)
      · show nodeInv m
        rw [allNodesL_append, List.mem_append] at hm2
        rcases hm2 with hm2 | hm2
        · -- nodes under the Submodules grouping
          unfold fill_submodules at hsub
          split at hsub
          · obtain rfl := (Option.some.inj hsub).symm
            simp [allNodesL] at hm2
          · next hne =>
            simp only [Option.bind_eq_some] at hsub
            obtain ⟨rl, hrl, hrl2⟩ := hsub
            obtain rfl := (Option.some.inj hrl2).symm
            rw [allNodesL, allNodesL, List.append_nil, allNodes,
              List.mem_cons] at hm2
            rcases hm2 with rfl | hm3
            · apply nodeInv_category
              · rw [create_module_list_length _ _ _ hrl]
              · intro hnil
                have hlen := create_module_list_length _ _ _ hrl
                rw [hnil] at hlen
                rw [List.isEmpty_iff] at hne
                exact hne (List.length_eq_zero.mp (by simpa using hlen.symm))
            · refine allNodesL_forall ?_ m hm3
              intro x hx
              exact create_module_list_each
                (fun n => ∀ m2 ∈ allNodes n, nodeInv m2)
                (fun q2 v r2 hr2 => ih q2 false v r2 hr2) _ _ _ hrl x hx
        · exact fill_categories_inv env cfg _ q m hm2

/-! ## Lemmas: category ordering -/

theorem memberNode_text (env : Env) (cfg : Cfg) (e : String × PyVal) :
    (memberNode env cfg e).text = e.1 := rfl

theorem fill_category_node_shape (env : Env) (cfg : Cfg)
    (ms : List (String × PyVal)) (p : PyVal → Bool) (title : String) :
    (fill_category_node env cfg ms p title).1 = [] ∨
    ∃ k cs, (fill_category_node env cfg ms p title).1 =
      [Node.mk (catText title k) "" false true cs] ∧ sortedTexts cs := by
  simp only [fill_category_node]
  split
  · exact Or.inl rfl
  · refine Or.inr ⟨(getmembers ms p).length,
      (getmembers ms p).map (memberNode env cfg), rfl, ?_⟩
    unfold sortedTexts
    refine List.Pairwise.map _ ?_ (getmembers_sorted ms p)
    intro a b hab
    rw [memberNode_text, memberNode_text]
    exact hab

/-- Every tree the builder produces observes the category ordering. -/
theorem create_module_node_ordered (env : Env) (cfg : Cfg) :
    ∀ fuel q root vis r, create_module_node env cfg fuel q root vis = some r →
      OrderedModule cfg r.1 := by
  intro fuel
  induction fuel with
  | zero =>
    intro q root vis r h
    simp [create_module_node] at h
  | succ fuel ih =>
    intro q root vis r h
    by_cases hmem : q ∈ vis
    · rw [create_module_node_circular env cfg fuel q root vis hmem] at h
      obtain rfl := (Option.some.inj h).symm
      exact OrderedModule.intro _ _ _ [] [] [] [] (Or.inl rfl)
        (by intro x hx; simp at hx) (Or.inl rfl) (Or.inl rfl) (Or.inl rfl)
    · rw [create_module_node_expand env cfg fuel q root vis hmem] at h
      simp only [Option.bind_eq_some] at h
      obtain ⟨sub, hsub, h2⟩ := h
      obtain rfl := (Option.some.inj h2).symm
      have hsubShape : sub.1 = [] ∨ ∃ k cs,
          sub.1 = [Node.mk (catText "Submodules" k) "" false true cs] := by
        unfold fill_submodules at hsub
        split at hsub
        · obtain rfl := (Option.some.inj hsub).symm
          exact Or.inl rfl
        · simp only [Option.bind_eq_some] at hsub
          obtain ⟨rl, hrl, hrl2⟩ := hsub
          obtain rfl := (Option.some.inj hrl2).symm
          exact Or.inr ⟨_, _, rfl⟩
      have hsubRec : ∀ x ∈ sub.1, ∀ y ∈ Node.children x,
          OrderedModule cfg y := by
        unfold fill_submodules at hsub
        split at hsub
        · obtain rfl := (Option.some.inj hsub).symm
          intro x hx
          simp at hx
        · simp only [Option.bind_eq_some] at hsub
          obtain ⟨rl, hrl, hrl2⟩ := hsub
          obtain rfl := (Option.some.inj hrl2).symm
          intro x hx y hy
          have hx2 := List.mem_singleton.mp hx
          subst hx2
          have hall : ∀ z ∈ rl.1, OrderedModule cfg z :=
            create_module_list_each _
              (fun q2 v r2 hr2 => ih q2 false v r2 hr2) _ _ _ hrl
          exact hall y hy
      show OrderedModule cfg (Node.mk _ _ _ false
        (sub.1 ++ (fill_categories env cfg (lookupMod env q).members q).1))
      simp only [fill_categories]
      split
      · next hft =>
        split
        · next hit =>
          refine OrderedModule.intro _ _ _ sub.1 _ _ _ hsubShape hsubRec
            (fill_category_node_shape env cfg _ _ "Classes") ?_ ?_
          · rcases fill_category_node_shape env cfg
              (lookupMod env q).members (pred_functions q) "Functions" with hsh | hsh
            · exact Or.inl hsh
            · exact Or.inr ⟨hft, hsh⟩
          · rcases fill_category_node_shape env cfg
              (lookupMod env q).members (pred_imported q) "Imported" with hsh | hsh
            · exact Or.inl hsh
            · exact Or.inr ⟨hit, hsh⟩
        · next =>
          refine OrderedModule.intro _ _ _ sub.1 _ _ [] hsubShape hsubRec
            (fill_category_node_shape env cfg _ _ "Classes") ?_ (Or.inl rfl)
          rcases fill_category_node_shape env cfg
            (lookupMod env q).members (pred_functions q) "Functions" with hsh | hsh
          · exact Or.inl hsh
          · exact Or.inr ⟨hft, hsh⟩
      · next =>
        split
        · next hit =>
          refine OrderedModule.intro _ _ _ sub.1 _ [] _ hsubShape hsubRec
            (fill_category_node_shape env cfg _ _ "Classes") (Or.inl rfl) ?_
          rcases fill_category_node_shape env cfg
            (lookupMod env q).members (pred_imported q) "Imported" with hsh | hsh
          · exact Or.inl hsh
          · exact Or.inr ⟨hit, hsh⟩
        · next =>
          exact OrderedModule.intro _ _ _ sub.1 _ [] [] hsubShape hsubRec
            (fill_category_node_shape env cfg _ _ "Classes") (Or.inl rfl)
            (Or.inl rfl)

/-! ## Concrete fixtures used by counterexamples and witnesses -/

/-- A self-referential module: `m` has itself among its members (Python:
a module importing itself), with a docstring. -/
def envC : Env := [("m", ⟨some "hello docs", [("m", PyVal.mod "m")]⟩)]

/-- A member module whose qualified name contains the container's
qualified name as a non-prefix substring: `"b.c"` occurs inside `"ab.c"`
starting at index 1. -/
def env3 : Env :=
  [("b.c", ⟨none, [("child", PyVal.mod "ab.c")]⟩), ("ab.c", ⟨none, []⟩)]

def cfg0 : Cfg := ⟨true, false, false⟩

/-- The nodes of the `envC` traversal. -/
def nodeC_circ : Node := Node.mk "* m (circular)" "hello docs" false false []

def nodeC_cat : Node :=
  Node.mk "[ Submodules (1) ]" "" false true [nodeC_circ]

def nodeC_root : Node := Node.mk "* m" "hello docs" true false [nodeC_cat]

/-- A canceled in-flight state: the progress popup reports cancellation
while a suspended generator and a partially built tree are present. -/
def s4 : Inspector :=
  { module_name := "m", gen := some [RStep.stops [] [] none],
    progress := some ⟨true⟩, submodules := ["m"],
    rootDoc := some "hello docs", tree := [("* m", "hello docs")],
    infoText := "", errors := [], completes := 0 }

/-- An idle state asked to load an unresolvable module name. -/
def s5 : Inspector :=
  { module_name := "ghost", gen := none, progress := none,
    submodules := ["old"], rootDoc := none, tree := [("x", "y")],
    infoText := "t", errors := [], completes := 0 }

/-- A fresh run whose generator raises on its very first resumption,
on an instance whose root module node was never assigned. -/
def s10a : Inspector :=
  { module_name := "m", gen := some [RStep.raises "boom"],
    progress := some ⟨false⟩, submodules := [], rootDoc := none,
    tree := [], infoText := "", errors := [], completes := 0 }

/-- A run that raises after the root node was created. -/
def s10b : Inspector :=
  { module_name := "m", gen := some [RStep.raises "boom"],
    progress := some ⟨false⟩, submodules := ["m"], rootDoc := some "hello docs",
    tree := [("* m", "hello docs")], infoText := "", errors := [],
    completes := 0 }

/-- An exhausted run with the root node in place. -/
def s10c : Inspector :=
  { module_name := "m", gen := some [],
    progress := some ⟨false⟩, submodules := ["m"], rootDoc := some "hello docs",
    tree := [("* m", "hello docs")], infoText := "", errors := [],
    completes := 0 }

/-! ## The claims -/

/-- **C1**: for every finite module graph, a full traversal with all
inclusion flags enabled terminates — fuel `bound env` (environment size
plus one) provably suffices, so the trace, and hence the number of
resumptions, is finite — and every distinct module qualified name is
fully expanded (recorded in the guard) at most once: the final guard
equals the trace's record list and has no duplicates. A second encounter
of an already-visited qualified name never descends: it produces a
childless node, leaves the guard unchanged and yields no further
resumption. -/
theorem C1_termination_at_most_once (env : Env) (q : String) :
    (create_module_node env allCfg (bound env) q true []).isSome ∧
    (∀ n vis tr,
      create_module_node env allCfg (bound env) q true [] = some (n, vis, tr) →
      vis = recordsOf tr ∧ vis.Nodup) ∧
    (∀ fuel q2 root vis n v t, q2 ∈ vis →
      create_module_node env allCfg (fuel + 1) q2 root vis = some (n, v, t) →
      Node.children n = [] ∧ v = vis ∧ countYields t = 0) := by
  refine ⟨create_module_node_bound_total env allCfg q true, ?_, ?_⟩
  · intro n vis tr h
    obtain ⟨hv, hn⟩ := create_module_node_vis env allCfg _ _ _ _ _ h
    constructor
    · simpa using hv
    · exact hn List.nodup_nil
  · intro fuel q2 root vis n v t hmem h
    rw [create_module_node_circular env allCfg fuel q2 root vis hmem] at h
    simp only [Option.some.injEq, Prod.mk.injEq] at h
    obtain ⟨rfl, rfl, rfl⟩ := h
    exact ⟨rfl, rfl, rfl⟩

theorem C1_witness :
    (create_module_node envC allCfg (bound envC) "m" true []).isSome ∧
    (["m"] = recordsOf [Ev.insModule "* m" "hello docs", Ev.record "m",
        Ev.yieldCtl, Ev.insCategory "Submodules" 1,
        Ev.insModule "* m" "hello docs", Ev.markCircular] ∧
      List.Nodup ["m"]) ∧
    (Node.children nodeC_circ = [] ∧ ["m"] = ["m"] ∧
      countYields [Ev.insModule "* m" "hello docs", Ev.markCircular] = 0) := by
  refine ⟨(C1_termination_at_most_once envC "m").1, ?_, ?_⟩
  · exact (C1_termination_at_most_once envC "m").2.1 nodeC_root ["m"]
      [Ev.insModule "* m" "hello docs", Ev.record "m", Ev.yieldCtl,
        Ev.insCategory "Submodules" 1, Ev.insModule "* m" "hello docs",
        Ev.markCircular] (by rfl)
  · exact (C1_termination_at_most_once envC "m").2.2 0 "m" false ["m"]
      nodeC_circ ["m"] [Ev.insModule "* m" "hello docs", Ev.markCircular]
      (by simp) (by rfl)

/-- **C2** counterexample: in `envC` the module `m` contains itself, so its
traversal reaches `m` a second time. The resulting circular node does have
the ` (circular)` suffix and no children, but its `doc` is `"hello docs"` —
the extractor result for the module, obtained from a documentation lookup
performed before the guard check. The claim's assertion that the
documentation lookup is skipped for such a node is false: the label
constructor is called with `doc=self.get_doc(module)` unconditionally
(docbrowser.py line 247), before the circular check at line 253. -/
theorem C2_counterexample :
    runNode envC allCfg "m" = nodeC_root ∧
    nodeC_circ.children = [] ∧
    nodeC_circ.doc = get_doc (lookupMod envC "m").doc ∧
    nodeC_circ.doc = "hello docs" ∧
    nodeC_circ.doc ≠ "" := by
  refine ⟨by rfl, rfl, by rfl, rfl, by decide⟩

/-- **C2 (amended)**: when the builder reaches a module already recorded in
the circular-reference guard, it still creates a node for it, suffixes its
label with ` (circular)`, does not descend beneath it (no children, the
guard is unchanged, and no suspension is produced for it) — but the
documentation lookup for that module is performed, not skipped: the node
carries the extractor's result for the module, exactly as a non-circular
node would. -/
theorem C2_amended_circular_node (env : Env) (cfg : Cfg) (fuel : Nat)
    (q : String) (root : Bool) (vis : List String) (hmem : q ∈ vis) :
    create_module_node env cfg (fuel + 1) q root vis =
      some (Node.mk ("* " ++ q ++ " (circular)")
          (get_doc (lookupMod env q).doc) root false [], vis,
        [Ev.insModule ("* " ++ q) (get_doc (lookupMod env q).doc),
          Ev.markCircular]) :=
  create_module_node_circular env cfg fuel q root vis hmem

theorem C2_amended_witness :
    create_module_node envC allCfg 1 "m" false ["m"] =
      some (Node.mk ("* " ++ "m" ++ " (circular)")
          (get_doc (lookupMod envC "m").doc) false false [], ["m"],
        [Ev.insModule ("* " ++ "m") (get_doc (lookupMod envC "m").doc),
          Ev.markCircular]) :=
  C2_amended_circular_node envC allCfg 0 "m" false ["m"] (by simp)

/-- **C3** counterexample: the source tests
`module.__name__ in x.__name__`, which is Python substring containment,
not a prefix test. With container `"b.c"` and member module `"ab.c"`,
the code classifies the member as a submodule (it appears under the
`Submodules` grouping and is descended into), yet `"b.c"` is not a prefix
of `"ab.c"` — refuting the claim's "if and only if ... prefixed". -/
theorem C3_counterexample :
    pred_submodules "b.c" (PyVal.mod "ab.c") = true ∧
    List.isPrefixOf "b.c".data "ab.c".data = false ∧
    recursionTargets env3 "b.c" = [("child", PyVal.mod "ab.c")] ∧
    runNode env3 allCfg "b.c" =
      Node.mk "* b.c" NO_DOC_STR true false
        [Node.mk "[ Submodules (1) ]" "" false true
          [Node.mk "* ab.c" NO_DOC_STR false false []]] := by
  refine ⟨by decide, by decide, by rfl, by rfl⟩

/-- **C3 (amended)**: a member of a module is treated as a submodule (a
recursion target) if and only if its value is a module and the container's
qualified name occurs as a contiguous substring of the member's qualified
name (Python `in`, not a prefix test). The selection `recursionTargets`
takes no inclusion flags, so it is evaluated identically on every module
expansion regardless of the configuration. -/
theorem C3_amended_submodule_test (env : Env) (q n : String) (v : PyVal) :
    (n, v) ∈ recursionTargets env q ↔
      (n, v) ∈ (lookupMod env q).members ∧ ismodule v = true ∧
        pyIn q (valName v) = true := by
  unfold recursionTargets
  rw [mem_getmembers]
  unfold pred_submodules
  simp only [Bool.and_eq_true]

/-- **C4** counterexample: in the canceled in-flight state `s4`, one more
driver tick leaves the state untouched — in particular `gen` (the
single-in-flight guard) still holds the suspended generator — and a
subsequent `load_documentation` with a resolvable module name is refused:
it returns the state unchanged instead of starting a new traversal. This
refutes the claim that the traversal state is discarded on cancellation
and that a subsequent call is not refused: `_fill_tree` returns early on
`is_canceled()` without ever clearing `self.__gen` (docbrowser.py lines
292-293), and `load_documentation` bails out while `self.__gen` is not
`None` (line 316). -/
theorem C4_counterexample :
    fill_tree s4 = Except.ok s4 ∧
    s4.gen ≠ none ∧
    load_documentation envC cfg0 s4 = Except.ok s4 ∧
    s4.tree ≠ [] := by
  refine ⟨by rfl, by decide, by rfl, by decide⟩

/-- **C4 (amended)**: when the host cancels an in-flight traversal, the
driver stops resuming the generator and already-inserted nodes remain in
the Tree Store (the state is completely unchanged), but the suspended
generator is retained, so every subsequent `load_documentation` call on
the same instance is refused as in-progress (returned unchanged). -/
theorem C4_amended_cancel (env : Env) (cfg : Cfg) (s : Inspector)
    (g : List RStep) (hg : s.gen = some g)
    (hc : s.progress = some ⟨true⟩) :
    fill_tree s = Except.ok s ∧ load_documentation env cfg s = Except.ok s := by
  constructor
  · unfold fill_tree
    rw [hc]
    rfl
  · unfold load_documentation
    rw [hg]
    simp

theorem C4_amended_witness :
    fill_tree s4 = Except.ok s4 ∧
    load_documentation env3 allCfg s4 = Except.ok s4 :=
  C4_amended_cancel env3 allCfg s4 [RStep.stops [] [] none] rfl rfl

/-- **C5**: a `load_documentation` call on an idle instance with a
nonempty name that fails to import reports the error and changes nothing
else: the returned state differs from the input only by the appended
error message — the Tree Store, the circular-reference guard, the (absent)
generator, the progress handle and the completion counter are exactly as
before the call, so no traversal state is created and no completion is
signalled for that call. -/
theorem C5_import_failure (env : Env) (cfg : Cfg) (s : Inspector)
    (hidle : s.gen = none) (hname : s.module_name ≠ "")
    (hmiss : env.find? (fun e => e.1 == s.module_name) = none) :
    load_documentation env cfg s =
      Except.ok { s with errors :=
        s.errors ++ ["No module named " ++ s.module_name] } := by
  unfold load_documentation
  rw [hidle]
  have hb : (s.module_name == "") = false := by
    rw [beq_eq_false_iff_ne]
    exact hname
  rw [hb]
  unfold importOutcome
  rw [hmiss]
  rfl

theorem C5_witness :
    load_documentation envC cfg0 s5 =
      Except.ok { s5 with errors := ["No module named ghost"] } :=
  C5_import_failure envC cfg0 s5 rfl (by decide) (by rfl)

/-! ## Lemmas: the first resumption of a run -/

theorem runTrace_head (env : Env) (cfg : Cfg) (q : String) :
    ∃ rest, runTrace env cfg q =
      Ev.insModule ("* " ++ q) (get_doc (lookupMod env q).doc) ::
      Ev.record q :: Ev.yieldCtl :: rest := by
  obtain ⟨r, hr⟩ := Option.isSome_iff_exists.mp
    (create_module_node_bound_total env cfg q true)
  have hrt : runTrace env cfg q = r.2.2 := by
    unfold runTrace runBuild
    rw [hr]
    rfl
  have hb : bound env = (env.map Prod.fst).toFinset.card + 1 := rfl
  rw [hb] at hr
  rw [create_module_node_expand env cfg _ q true [] (by simp)] at hr
  simp only [Option.bind_eq_some] at hr
  obtain ⟨sub, hsub, h2⟩ := hr
  obtain rfl := (Option.some.inj h2).symm
  exact ⟨sub.2.2 ++ (fill_categories env cfg (lookupMod env q).members q).2,
    hrt⟩

theorem genOf_head (env : Env) (cfg : Cfg) (q : String) :
    ∃ rest, genOf env cfg q =
      RStep.yields [("* " ++ q, get_doc (lookupMod env q).doc)] [q]
        (some (get_doc (lookupMod env q).doc)) :: rest := by
  obtain ⟨rest, hrest⟩ := runTrace_head env cfg q
  unfold genOf
  rw [hrest]
  exact ⟨unitsGo rest [] [], rfl⟩

/-! ## Claims C6 to C10 -/

/-- **C6**: in every traversal, a category grouping node (`no_selection`)
is created only when nonempty, and its label carries exactly the number of
children placed under it. -/
theorem C6_category_counts (env : Env) (cfg : Cfg) (q : String) :
    ∀ m ∈ allNodes (runNode env cfg q), m.noSel = true →
      m.children ≠ [] ∧ ∃ title, m.text = catText title m.children.length := by
  intro m hm hsel
  obtain ⟨r, hr⟩ := Option.isSome_iff_exists.mp
    (create_module_node_bound_total env cfg q true)
  have hrn : runNode env cfg q = r.1 := by
    unfold runNode runBuild
    rw [hr]
    rfl
  rw [hrn] at hm
  exact (create_module_node_inv env cfg _ _ _ _ _ hr m hm).1 hsel

theorem C6_witness :
    nodeC_cat.children ≠ [] ∧
    ∃ title, nodeC_cat.text = catText title nodeC_cat.children.length := by
  have hmem : nodeC_cat ∈ allNodes (runNode envC allCfg "m") := by
    have h : allNodes (runNode envC allCfg "m") =
        [nodeC_root, nodeC_cat, nodeC_circ] := rfl
    rw [h]
    exact List.Mem.tail _ (List.Mem.head _)
  exact C6_category_counts envC allCfg "m" nodeC_cat hmem rfl

/-- **C7**: the documentation extractor is total and returns the
indentation-normalized documentation when that is nonempty, the fixed
sentinel otherwise; consequently its result is never the empty string, and
every childless node of every built tree carries a nonempty `doc`. -/
theorem C7_doc_extractor :
    (∀ s, cleandoc s ≠ "" → get_doc (some s) = cleandoc s) ∧
    (∀ s, cleandoc s = "" → get_doc (some s) = NO_DOC_STR) ∧
    get_doc none = NO_DOC_STR ∧
    (∀ d, get_doc d ≠ "") ∧
    (∀ (env : Env) (cfg : Cfg) (q : String),
      ∀ m ∈ allNodes (runNode env cfg q), m.children = [] → m.doc ≠ "") := by
  refine ⟨?_, ?_, rfl, get_doc_ne_empty, ?_⟩
  · intro s hs
    rw [get_doc_some, if_neg]
    simpa using hs
  · intro s hs
    rw [get_doc_some, if_pos]
    simpa using hs
  · intro env cfg q m hm hch
    obtain ⟨r, hr⟩ := Option.isSome_iff_exists.mp
      (create_module_node_bound_total env cfg q true)
    have hrn : runNode env cfg q = r.1 := by
      unfold runNode runBuild
      rw [hr]
      rfl
    rw [hrn] at hm
    exact (create_module_node_inv env cfg _ _ _ _ _ hr m hm).2 hch

theorem C7_witness :
    get_doc (some "hello docs") = cleandoc "hello docs" ∧
    get_doc (some "   \n") = NO_DOC_STR ∧
    nodeC_circ.doc ≠ "" := by
  refine ⟨C7_doc_extractor.1 "hello docs" (by decide),
    C7_doc_extractor.2.1 "   \n" (by decide), ?_⟩
  have hmem : nodeC_circ ∈ allNodes (runNode envC allCfg "m") := by
    have h : allNodes (runNode envC allCfg "m") =
        [nodeC_root, nodeC_cat, nodeC_circ] := rfl
    rw [h]
    exact List.Mem.tail _ (List.Mem.tail _ (List.Mem.head _))
  exact C7_doc_extractor.2.2.2.2 envC allCfg "m" nodeC_circ hmem rfl

/-- **C8**: every module node's category children appear in the fixed
order Submodules, Classes, Functions (only with the functions flag),
Imported (only with the imported flag); member groupings list their
children in ascending name order, and the member enumeration feeding the
Submodules grouping is name-sorted. Re-running a traversal on the same
environment with the same configuration is the same pure function
application, hence produces the identical tree. -/
theorem C8_ordering (env : Env) (cfg : Cfg) (q : String) :
    OrderedModule cfg (runNode env cfg q) ∧
    List.Pairwise nameLe (recursionTargets env q) ∧
    runBuild env cfg q = runBuild env cfg q := by
  refine ⟨?_, getmembers_sorted _ _, rfl⟩
  obtain ⟨r, hr⟩ := Option.isSome_iff_exists.mp
    (create_module_node_bound_total env cfg q true)
  have hrn : runNode env cfg q = r.1 := by
    unfold runNode runBuild
    rw [hr]
    rfl
  rw [hrn]
  exact create_module_node_ordered env cfg _ _ _ _ _ hr

/-- **C9**: the builder's trace is accepted by the suspension-discipline
automaton — every `yield` immediately follows either the recording of a
module in the guard or the insertion of a category member (possibly
after that member's method nodes, which share the member's work unit with
no suspension of their own), a recorded module yields immediately, and no
suspension splits the construction of a single node — and the number of
suspensions equals the number of recorded modules plus the number of
inserted category members. -/
theorem C9_suspension_points (env : Env) (cfg : Cfg) (q : String) :
    scanList (runTrace env cfg q) ScanSt.neutral = some ScanSt.neutral ∧
    countYields (runTrace env cfg q) =
      countRecords (runTrace env cfg q) + countMembers (runTrace env cfg q) := by
  obtain ⟨r, hr⟩ := Option.isSome_iff_exists.mp
    (create_module_node_bound_total env cfg q true)
  have hrt : runTrace env cfg q = r.2.2 := by
    unfold runTrace runBuild
    rw [hr]
    rfl
  rw [hrt]
  exact ⟨create_module_node_scan env cfg _ _ _ _ _ hr,
    create_module_node_counts env cfg _ _ _ _ _ hr⟩

/-- **C10**: `_load_complete` unconditionally dereferences the stored root
module node. If the generator raises on its very first resumption — before
the root node of this run was created — and no earlier run ever set a root
node, the error-finalization path itself raises (`AttributeError` on the
absent node) instead of completing the report-and-reset sequence. When a
root node is in place (and the first work unit of a real builder run
always sets it, with the module's extracted doc), finalization after an
exception or after exhaustion succeeds and clears the generator, returning
the instance to idle. -/
theorem C10_finalization :
    (∀ (s : Inspector) (m : String) (rest : List RStep),
      (s.progress.map Progress.canceled).getD false = false →
      s.rootDoc = none → s.gen = some (RStep.raises m :: rest) →
      fill_tree s =
        Except.error "AttributeError: NoneType object has no attribute doc") ∧
    (∀ (s : Inspector) (d m : String) (rest : List RStep),
      (s.progress.map Progress.canceled).getD false = false →
      s.rootDoc = some d → s.gen = some (RStep.raises m :: rest) →
      fill_tree s = Except.ok
        { s with
            errors := s.errors ++ [m],
            infoText := d,
            progress := none,
            gen := none,
            completes := s.completes + 1 }) ∧
    (∀ (s : Inspector) (d : String),
      (s.progress.map Progress.canceled).getD false = false →
      s.rootDoc = some d → s.gen = some [] →
      fill_tree s = Except.ok
        { s with
            infoText := d,
            progress := none,
            gen := none,
            completes := s.completes + 1 }) ∧
    (∀ (env : Env) (cfg : Cfg) (q : String), ∃ rest, genOf env cfg q =
      RStep.yields [("* " ++ q, get_doc (lookupMod env q).doc)] [q]
        (some (get_doc (lookupMod env q).doc)) :: rest) := by
  refine ⟨?_, ?_, ?_, genOf_head⟩
  · intro s m rest hc hroot hg
    unfold fill_tree
    rw [hc, hg]
    simp only [Bool.false_eq_true, if_false]
    unfold load_complete
    rw [hroot]
  · intro s d m rest hc hroot hg
    unfold fill_tree
    rw [hc, hg]
    simp only [Bool.false_eq_true, if_false]
    unfold load_complete
    rw [hroot]
  · intro s d hc hroot hg
    unfold fill_tree
    rw [hc, hg]
    simp only [Bool.false_eq_true, if_false]
    unfold load_complete
    rw [hroot]

theorem C10_witness :
    fill_tree s10a =
      Except.error "AttributeError: NoneType object has no attribute doc" ∧
    fill_tree s10b = Except.ok
      { s10b with
          errors := ["boom"],
          infoText := "hello docs",
          progress := none,
          gen := none,
          completes := 1 } ∧
    fill_tree s10c = Except.ok
      { s10c with
          infoText := "hello docs",
          progress := none,
          gen := none,
          completes := 1 } ∧
    (∃ rest, genOf envC allCfg "m" =
      RStep.yields [("* " ++ "m", get_doc (lookupMod envC "m").doc)] ["m"]
        (some (get_doc (lookupMod envC "m").doc)) :: rest) := by
  refine ⟨?_, ?_, ?_, C10_finalization.2.2.2 envC allCfg "m"⟩
  · exact C10_finalization.1 s10a "boom" [] rfl rfl rfl
  · exact C10_finalization.2.1 s10b "hello docs" "boom" [] rfl rfl rfl
  · exact C10_finalization.2.2.1 s10c "hello docs" rfl rfl rfl

end Docbrowser
